import Mathlib

/-!
Verification of the `stor` distributed object store (frontend orchestrator,
metadata store, range reader, and storage-node surface) against its
natural-language specification.  Go code is shallowly embedded as executable
Lean functions over lists; Go `int64` quantities that are nonnegative in every
reachable state (sizes, offsets, counts) are modelled as `Nat`, except inside
`LimitReaderFrom`, whose fields are modelled as `Int` because the code
explicitly tests `N <= 0`.
-/

namespace Stor

/-- A byte of a stream.  Byte values are opaque to every algorithm verified
here, so we model them as natural numbers. -/
abbrev Byte := Nat

/-- A 128-bit chunk identifier (`uuid.UUID`); only freshness and equality of
identifiers matter to the verified code, so we model them as naturals. -/
abbrev ChunkId := Nat

/-- `internal/front`: the `Chunk` struct.  `Index`, `Offset` and `Size` are Go
`int`/`int64` values that are nonnegative in every reachable state. -/
structure Chunk where
  index : Nat
  id : ChunkId
  offset : Nat
  size : Nat
  nodeBaseURL : String
  deriving Repr, DecidableEq

/-- `internal/front`: the `File` struct. -/
structure File where
  size : Nat
  name : String
  chunks : List Chunk
  deriving Repr, DecidableEq

/-- `internal/front`: the `NodeStat` struct. -/
structure NodeStat where
  baseURL : String
  totalChunks : Nat
  totalSize : Nat
  deriving Repr, DecidableEq

instance : Inhabited Chunk := ⟨⟨0, 0, 0, 0, ""⟩⟩
instance : Inhabited NodeStat := ⟨⟨"", 0, 0⟩⟩

/-! ## LimitReaderFrom

Embedding of `LimitReaderFrom` (`internal/front`): a reader over an
`io.ReaderAt` source that reads from `R` at `Offset` and stops with EOF after
`N` bytes.  The source is a byte list; `ReadAt(p, off)` returns
`min (len p) (len R - off)` bytes starting at `off` (short reads happen only
at end of source, per the `io.ReaderAt` contract of `os.File`). -/

/-- Mutable state of a `LimitReaderFrom` value: remaining byte budget `N` and
current absolute position `Offset` in the source. -/
structure LRF where
  N : Int
  offset : Int
  deriving Repr, DecidableEq

/-- One call of `LimitReaderFrom.Read` with a buffer of length `m`.
Returns the bytes read, the advanced reader, and whether an EOF error was
reported (either because `N <= 0` already, or because the underlying `ReadAt`
hit the end of the source). -/
def lrfRead (R : List Byte) (st : LRF) (m : Nat) : List Byte × LRF × Bool :=
  if st.N ≤ 0 then
    ([], st, true)
  else
    -- `if int64(len(p)) > l.N { p = p[:l.N] }`
    let count := min m st.N.toNat
    -- `n, err = l.R.ReadAt(p, l.Offset)`
    let bytes := (R.drop st.offset.toNat).take count
    -- `l.Offset += int64(n); l.N -= int64(n)`
    (bytes, ⟨st.N - bytes.length, st.offset + bytes.length⟩, bytes.length < count)

/-- The positioned read issued to the underlying source by one `Read` call:
`none` when `N <= 0` (the source is not touched), otherwise the pair
(start offset, requested length).  Mirrors the `ReadAt` call of `lrfRead`. -/
def lrfIssued (st : LRF) (m : Nat) : Option (Int × Int) :=
  if st.N ≤ 0 then none else some (st.offset, (min m st.N.toNat : Nat))

/-- Driving loop of `io.Copy(dst, l)` over a `LimitReaderFrom`: call `Read`
with an `m`-byte buffer until an error (EOF) is reported.  `fuel` bounds the
number of iterations so that the function is total. -/
def lrfDrain (R : List Byte) (m : Nat) : Nat → LRF → List Byte × LRF
  | 0, st => ([], st)
  | fuel + 1, st =>
    match lrfRead R st m with
    | (bytes, st', true) => (bytes, st')
    | (bytes, st', false) =>
      let rest := lrfDrain R m fuel st'
      (bytes ++ rest.1, rest.2)

/-- An arbitrary sequence of `Read` calls with buffer sizes `ms`, recording
every positioned read issued to the underlying source. -/
def lrfReadSeq (R : List Byte) : List Nat → LRF → List (Int × Int) × LRF
  | [], st => ([], st)
  | m :: ms, st =>
    let step := lrfRead R st m
    let rest := lrfReadSeq R ms step.2.1
    ((lrfIssued st m).toList ++ rest.1, rest.2)

/-! ## Chunk splitting (`Handler.upload`, `internal/front`)

`size / 6` is Go `int64` division of nonnegative operands, i.e. `Nat`
division.  Fresh identifiers and placed base URLs are parameters. -/

/-- The chunk-descriptor construction loop of `Handler.upload`:
`chunkSize := size / n`; chunk `i` gets `Offset = i*chunkSize`,
`Size = chunkSize`, and the last chunk absorbs the remainder
(`Size = size - Offset`). -/
def mkChunks (size : Nat) (n : Nat) (ids : Nat → ChunkId) (urls : Nat → String) :
    List Chunk :=
  (List.range n).map fun i =>
    let chunkSize := size / n
    { index := i
      id := ids i
      offset := i * chunkSize
      size := if i = n - 1 then size - i * chunkSize else chunkSize
      nodeBaseURL := urls i }

/-! ## Placement (`Handler.selectLeastFilledNodes` / `Handler.NextClients`)

`slices.SortFunc(nodes, func(a, b NodeStat) int { return int(a.TotalSize -
b.TotalSize) })` sorts ascending by `TotalSize` (sizes are nonnegative, so the
comparator's sign is the sign of the difference).  The Go sort is unstable;
we model it by a deterministic sort with the same comparator — every property
proved below depends only on the `TotalSize` order, never on tie order. -/

/-- Comparator of `selectLeastFilledNodes` and of `YDBStorage.NodeStats`:
ascending `TotalSize`. -/
def statLE (a b : NodeStat) : Prop := a.totalSize ≤ b.totalSize

instance : DecidableRel statLE := fun a b => inferInstanceAs (Decidable (a.totalSize ≤ b.totalSize))

instance : IsTotal NodeStat statLE := ⟨fun a b => Nat.le_total a.totalSize b.totalSize⟩

instance : IsTrans NodeStat statLE := ⟨fun _ _ _ h h' => Nat.le_trans h h'⟩

/-- The in-place `slices.SortFunc` of the stats slice. -/
def sortStats (l : List NodeStat) : List NodeStat := l.insertionSort statLE

/-- The cyclic-repetition loop of `selectLeastFilledNodes`: starting from an
empty output, append the sorted nodes over and over until the output reaches
length `n`; element `i` of the output is element `i % len src` of `src`. -/
def cycleFill (src : List NodeStat) (n : Nat) : List NodeStat :=
  (List.range n).map fun i => src.getD (i % src.length) default

/-- `Handler.selectLeastFilledNodes(nodes, n)`: `nil` on empty input; else
sort ascending by total size and return the first `n` when `n < len(nodes)`,
otherwise cyclically repeat the whole sorted list up to length `n`. -/
def selectLeastFilledNodes (nodes : List NodeStat) (n : Nat) : List NodeStat :=
  if nodes.isEmpty then
    []
  else
    let sorted := sortStats nodes
    if n < nodes.length then sorted.take n
    else cycleFill sorted n

/-- `Handler.NextClients(ctx, n)` given the stats returned by
`storage.NodeStats`: select the least-filled nodes; a `"no nodes"` error when
the selection is empty; otherwise the clients for the selected base URLs
(`GetClient` is keyed by base URL, so a client is identified by its URL). -/
def NextClientsModel (stats : List NodeStat) (n : Nat) : Except String (List String) :=
  let nodes := selectLeastFilledNodes stats n
  if nodes.isEmpty then .error "no nodes"
  else .ok (nodes.map (·.baseURL))

/-! ## Metadata store (`YDBStorage`, `internal/front`)

The three relations of the metadata schema, modelled as in-memory lists.
`files` and `nodes` are keyed association lists; `chunks` rows live in a YDB
row table with primary key `(file, index)`, whose range reads return rows in
primary-key order — a `SELECT ... WHERE file = $name` therefore yields the
rows of one file ordered by `index` ascending, modelled by sorting the
selected rows by `index`. -/

/-- One row of the `chunks` table. -/
structure ChunkRow where
  file : String
  index : Nat
  id : ChunkId
  offset : Nat
  size : Nat
  node : String
  deriving Repr, DecidableEq

/-- The persisted metadata state: `files(name → size)`,
`chunks(file, index → id, offset, size, node)`, `nodes(base_url)`. -/
structure MetaState where
  files : List (String × Nat)
  chunks : List ChunkRow
  nodes : List String
  deriving Repr, DecidableEq

/-- Errors of `YDBStorage.File`: `FileNotFoundErr` and `ChunksNotFound`. -/
inductive MetaErr where
  | fileNotFound (file : String)
  | chunksNotFound (file : String)
  deriving Repr, DecidableEq

/-- Row order of the `chunks` table restricted to one file: by `index`. -/
def rowIdxLE (a b : ChunkRow) : Prop := a.index ≤ b.index

instance : DecidableRel rowIdxLE := fun a b => inferInstanceAs (Decidable (a.index ≤ b.index))

instance : IsTotal ChunkRow rowIdxLE := ⟨fun a b => Nat.le_total a.index b.index⟩

instance : IsTrans ChunkRow rowIdxLE := ⟨fun _ _ _ h h' => Nat.le_trans h h'⟩

/-- Key lookup in the `files` relation. -/
def lookupFile (files : List (String × Nat)) (name : String) : Option Nat :=
  (files.find? (·.1 = name)).map (·.2)

/-- Assembling one scanned chunk row into a `Chunk` value
(`file.Chunks = append(file.Chunks, Chunk{...})` in `YDBStorage.File`). -/
def rowToChunk (r : ChunkRow) : Chunk :=
  { index := r.index, id := r.id, offset := r.offset, size := r.size
    nodeBaseURL := r.node }

/-- `YDBStorage.File(name)`: read the file row; absent ⇒ `FileNotFoundErr`;
read the chunk rows of the file (in primary-key order, i.e. `index`
ascending); none ⇒ `ChunksNotFound`; else assemble the `File` value. -/
def metaFile (meta : MetaState) (name : String) : Except MetaErr File :=
  match lookupFile meta.files name with
  | none => .error (.fileNotFound name)
  | some size =>
    let rows := ((meta.chunks.filter (·.file = name)).insertionSort rowIdxLE)
    if rows.isEmpty then .error (.chunksNotFound name)
    else .ok { size := size, name := name, chunks := rows.map rowToChunk }

/-- `UPSERT INTO files`: replace the row with key `name`, or add it. -/
def upsertFileRow (files : List (String × Nat)) (name : String) (size : Nat) :
    List (String × Nat) :=
  files.filter (fun p => !(p.1 = name)) ++ [(name, size)]

/-- `UPSERT INTO chunks`: replace the row with key `(file, index)`, or add
it.  (Row order inside the table is immaterial: reads sort by the key.) -/
def upsertChunkRow (rows : List ChunkRow) (c : ChunkRow) : List ChunkRow :=
  rows.filter (fun r => !(r.file = c.file && r.index = c.index)) ++ [c]

/-- The chunk row written for one member of `file.Chunks` by
`YDBStorage.AddFile`. -/
def chunkToRow (name : String) (c : Chunk) : ChunkRow :=
  { file := name, index := c.index, id := c.id, offset := c.offset
    size := c.size, node := c.nodeBaseURL }

/-- `YDBStorage.AddFile(file)`: one transaction upserting the file row and
every chunk row. -/
def metaAddFile (meta : MetaState) (f : File) : MetaState :=
  { meta with
    files := upsertFileRow meta.files f.name f.size
    chunks := f.chunks.foldl
      (fun rows c => upsertChunkRow rows (chunkToRow f.name c)) meta.chunks }

/-- `YDBStorage.RemoveFile(name)`: one transaction deleting the file row and
all chunk rows of the file. -/
def metaRemoveFile (meta : MetaState) (name : String) : MetaState :=
  { meta with
    files := meta.files.filter (fun p => !(p.1 = name))
    chunks := meta.chunks.filter (fun r => !(r.file = name)) }

/-- `YDBStorage.AddNode(node)`: `UPSERT INTO nodes` — presence is a no-op. -/
def metaAddNode (meta : MetaState) (baseURL : String) : MetaState :=
  if meta.nodes.contains baseURL then meta
  else { meta with nodes := meta.nodes ++ [baseURL] }

/-- Upsert into the Go map `stats : map[string]NodeStat` of
`YDBStorage.NodeStats`, modelled as a keyed association list. -/
def statsMapUpsert (m : List (String × NodeStat)) (k : String) (v : NodeStat) :
    List (String × NodeStat) :=
  if m.any (·.1 = k) then m.map (fun p => if p.1 = k then (k, v) else p)
  else m ++ [(k, v)]

/-- `SELECT node, count(1), sum(size) FROM chunks GROUP BY node`: one entry
per distinct `node` value with its row count and size sum. -/
def groupChunksByNode (rows : List ChunkRow) : List (String × Nat × Nat) :=
  rows.foldl
    (fun acc r =>
      if acc.any (·.1 = r.node) then
        acc.map (fun g => if g.1 = r.node then (g.1, g.2.1 + 1, g.2.2 + r.size) else g)
      else acc ++ [(r.node, 1, r.size)])
    []

/-- `YDBStorage.NodeStats()`: seed the map with a zero stat per known node,
overwrite from the `chunks` aggregation, then sort ascending by total size. -/
def metaNodeStats (meta : MetaState) : List NodeStat :=
  let init := meta.nodes.foldl (fun acc u => statsMapUpsert acc u ⟨u, 0, 0⟩) []
  let merged := (groupChunksByNode meta.chunks).foldl
    (fun acc g => statsMapUpsert acc g.1 ⟨g.1, g.2.1, g.2.2⟩) init
  sortStats (merged.map (·.2))

/-! ## Storage node (`internal/node`)

`Chunks` stores one blob per identifier (the on-disk fan-out into
`<id[0:2]>/<id[2:4]>/<id>` subdirectories is a bijective renaming of the key
and does not affect any verified property).  `NewHandler` routes
`/chunks/{id}`: unparseable id ⇒ 400; `GET` ⇒ `storage.Read` (500 on
miss); `PUT` ⇒ `storage.Write`; every other method — `DELETE` included —
falls into the `default` branch ⇒ 405 "method not allowed". -/

/-- Node-local blob store: identifier → bytes. -/
abbrev NodeStore := List (ChunkId × List Byte)

/-- Lookup in a keyed association list (generic helper). -/
def alistLookup {κ ν : Type} [DecidableEq κ] (m : List (κ × ν)) (k : κ) : Option ν :=
  (m.find? (·.1 = k)).map (·.2)

/-- Keyed upsert in an association list (generic helper). -/
def alistUpsert {κ ν : Type} [DecidableEq κ] (m : List (κ × ν)) (k : κ) (v : ν) :
    List (κ × ν) :=
  m.filter (fun p => !(p.1 = k)) ++ [(k, v)]

/-- Keyed removal from an association list (generic helper). -/
def alistErase {κ ν : Type} [DecidableEq κ] (m : List (κ × ν)) (k : κ) :
    List (κ × ν) :=
  m.filter (fun p => !(p.1 = k))

/-- `Chunks.Delete(id)`: remove the blob; a missing blob is success
(`os.IsNotExist(err)` ⇒ `err = nil`), so `Delete` is idempotent. -/
def chunksDelete (st : NodeStore) (id : ChunkId) : NodeStore :=
  alistErase st id

/-- HTTP methods reaching the node handler's `switch r.Method`. -/
inductive Method where
  | get
  | put
  | delete
  | other
  deriving Repr, DecidableEq

/-- Outcome of one request to the node's `/chunks/{id}` route: HTTP status,
response body (for `GET`), and the store afterwards. -/
structure NodeResponse where
  status : Nat
  body : Option (List Byte)
  store : NodeStore
  deriving Repr, DecidableEq

/-- `node.NewHandler`'s `/chunks/{id}` route.  `id?` is the result of
`uuid.Parse(r.PathValue("id"))`; `body` is the request body (used by `PUT`).
The method switch has cases for `GET` and `PUT` only; anything else takes the
`default` branch: 405 "method not allowed", store untouched. -/
def nodeHandleChunk (method : Method) (id? : Option ChunkId) (body : List Byte)
    (st : NodeStore) : NodeResponse :=
  match id? with
  | none => ⟨400, none, st⟩
  | some id =>
    match method with
    | .get =>
      match alistLookup st id with
      | some bytes => ⟨200, some bytes, st⟩
      | none => ⟨500, none, st⟩
    | .put => ⟨200, none, alistUpsert st id body⟩
    | _ => ⟨405, none, st⟩

/-! ## Frontend orchestrator (`Handler`, `internal/front`)

State and entry points of the upload/download handler.  Every storage-node
client is value-like and keyed by base URL, so the cluster of nodes is one
global blob map keyed by (base URL, chunk id); `NodeClient.Write/Read/Delete`
honouring their contracts act on that map.  Task failures to be injected
(remote write errors, metadata errors) are environment parameters. -/

/-- All storage nodes of the cluster: (base URL, chunk id) → blob. -/
abbrev Blobs := List ((String × ChunkId) × List Byte)

/-- In-memory state owned by `Handler`: the cached `stat` snapshot (written
by `UpdateNodeStats` on the 1-second tick of `NodeStatUpdater`) and the
metadata store it queries. -/
structure HandlerState where
  stat : List NodeStat
  meta : MetaState
  deriving Repr, DecidableEq

/-- `Handler.UpdateNodeStats`: query `storage.NodeStats` and replace the
cached snapshot under the mutex. -/
def updateNodeStats (h : HandlerState) : HandlerState :=
  { h with stat := metaNodeStats h.meta }

/-- `Handler.NextClients(ctx, n)` as invoked during upload: it queries
`h.storage.NodeStats(ctx)` afresh and selects from that result.  The cached
`h.stat` snapshot is not consulted (exactly as in the code, which reads
`stat, err := h.storage.NodeStats(ctx)`). -/
def handlerNextClients (h : HandlerState) (n : Nat) : Except String (List String) :=
  NextClientsModel (metaNodeStats h.meta) n

/-- Effects attempted by the upload entry point, in program order. -/
inductive Op where
  | fetchNodes
  | write (url : String) (id : ChunkId)
  | addFile (name : String)
  | delete (url : String) (id : ChunkId)
  | removeFile (name : String)
  deriving Repr, DecidableEq

/-- Failure injection for the upload failure group and its cleanup phase:
`writeErr i` is the outcome of the chunk-`i` write task, `addFileErr` of the
`AddFile` task, and `deleteErr`/`removeFileErr` of the best-effort cleanup
calls. -/
structure UploadEnv where
  writeErr : Nat → Option String
  addFileErr : Option String
  deleteErr : Nat → Option String
  removeFileErr : Option String

/-- The environment in which every remote and metadata call succeeds. -/
def noFailEnv : UploadEnv :=
  { writeErr := fun _ => none, addFileErr := none
    deleteErr := fun _ => none, removeFileErr := none }

/-- The byte stream a chunk's write task sends to its node:
`io.Copy` (32 KiB buffer) over
`LimitReaderFrom{R: formFile, N: chunk.Size, Offset: chunk.Offset}`. -/
def chunkBytes (data : List Byte) (c : Chunk) : List Byte :=
  (lrfDrain data 32768 (c.size + 1) ⟨(c.size : Int), (c.offset : Int)⟩).1

/-- The `N` successful chunk writes of the failure group: each stores its
`LimitReaderFrom` window on its node under the chunk's fresh id (a failing
write stores nothing — the node removes partial files best-effort). -/
def applyWrites (env : UploadEnv) (data : List Byte) (blobs : Blobs)
    (cs : List Chunk) : Blobs :=
  cs.foldl
    (fun bl c =>
      if env.writeErr c.index = none then
        alistUpsert bl (c.nodeBaseURL, c.id) (chunkBytes data c)
      else bl)
    blobs

/-- Best-effort cleanup deletes: `NodeClient.Delete(chunk.ID)` for every
chunk; a failing delete leaves the blob (and is only logged). -/
def applyDeletes (env : UploadEnv) (blobs : Blobs) (cs : List Chunk) : Blobs :=
  cs.foldl
    (fun bl c =>
      if env.deleteErr c.index = none then alistErase bl (c.nodeBaseURL, c.id)
      else bl)
    blobs

/-- Outcome of one upload request: HTTP status, the handler error (`none` on
success), the states afterwards, and the trace of attempted effects. -/
structure UploadOutcome where
  status : Nat
  errMsg : Option String
  meta : MetaState
  blobs : Blobs
  ops : List Op

/-- `Handler.upload` for a parsed multipart form carrying one file part
(`name`, `data`); `ids i` is the fresh `uuid.New()` of chunk `i`.  Steps, as
in the code: `FetchNodes`; split into `chunksPerFile = 6` descriptors;
`NextClients(6)` — on error respond 500 before any task runs; run the failure
group of 6 writes plus `AddFile` (modelled in task order, `g.Wait()`
returning the first error); on failure run cleanup (every `Delete`, then
`RemoveFile`, failures logged only) and respond 500 with the group error. -/
def uploadModel (env : UploadEnv) (ids : Nat → ChunkId) (meta : MetaState)
    (blobs : Blobs) (name : String) (data : List Byte) : UploadOutcome :=
  let size := data.length
  match NextClientsModel (metaNodeStats meta) 6 with
  | .error e => ⟨500, some e, meta, blobs, [.fetchNodes]⟩
  | .ok clients =>
    let chunks := mkChunks size 6 ids (fun i => clients.getD i "")
    let file : File := ⟨size, name, chunks⟩
    let blobs1 := applyWrites env data blobs chunks
    let meta1 := if env.addFileErr = none then metaAddFile meta file else meta
    let groupOps := chunks.map (fun c => Op.write c.nodeBaseURL c.id) ++ [.addFile name]
    let firstErr := (chunks.map (fun c => env.writeErr c.index) ++ [env.addFileErr]).findSome? id
    match firstErr with
    | none => ⟨200, none, meta1, blobs1, .fetchNodes :: groupOps⟩
    | some e =>
      let blobs2 := applyDeletes env blobs1 chunks
      let meta2 := if env.removeFileErr = none then metaRemoveFile meta1 name else meta1
      ⟨500, some e, meta2, blobs2,
        (.fetchNodes :: groupOps) ++
          chunks.map (fun c => Op.delete c.nodeBaseURL c.id) ++ [.removeFile name]⟩

/-- `Handler.download` for file `name`: `storage.File(name)` (errors surface
as a server error); then stream every chunk in the returned order through
`GetClient(chunk.NodeBaseURL).Read(chunk.ID, w)`; a read miss stops the
stream mid-way (the bytes already sent stay sent). -/
def streamChunks (blobs : Blobs) : List Chunk → List Byte
  | [] => []
  | c :: cs =>
    match alistLookup blobs (c.nodeBaseURL, c.id) with
    | some bytes => bytes ++ streamChunks blobs cs
    | none => []

/-- The response body of `Handler.download` — the metadata error, or the
concatenation of the chunk reads in the order `storage.File` returned them. -/
def downloadModel (meta : MetaState) (blobs : Blobs) (name : String) :
    Except MetaErr (List Byte) :=
  match metaFile meta name with
  | .error e => .error e
  | .ok f => .ok (streamChunks blobs f.chunks)

/-! ## Lemmas about `LimitReaderFrom` -/

/-- Splicing two adjacent windows of a list. -/
theorem take_drop_chain (d : List Byte) (o a b : Nat) :
    (d.drop o).take a ++ (d.drop (o + a)).take b = (d.drop o).take (a + b) := by
  rw [List.take_add, List.drop_drop]

/-- Draining a `LimitReaderFrom` whose window lies inside the source yields
exactly the window, ending with `N = 0` at the window's right edge. -/
theorem lrfDrain_spec (R : List Byte) (m : Nat) (hm : 1 ≤ m) :
    ∀ (fuel : Nat) (n off : Int), 0 ≤ n → 0 ≤ off →
      off + n ≤ (R.length : Int) → n.toNat < fuel →
      lrfDrain R m fuel ⟨n, off⟩ =
        ((R.drop off.toNat).take n.toNat, ⟨0, off + n⟩) := by
  intro fuel
  induction fuel with
  | zero => intro n off _ _ _ h; omega
  | succ fuel ih =>
    intro n off hn hoff hwin hfuel
    by_cases h0 : n ≤ 0
    · have hn0 : n = 0 := le_antisymm h0 hn
      subst hn0
      simp [lrfDrain, lrfRead]
    · have hpos : 0 < n := lt_of_not_le h0
      have hcount : (R.drop off.toNat).length = R.length - off.toNat :=
        List.length_drop _ _
      have hbound : off.toNat + n.toNat ≤ R.length := by omega
      have hlen : ((R.drop off.toNat).take (min m n.toNat)).length = min m n.toNat := by
        rw [List.length_take, hcount]
        omega
      have hread : lrfRead R ⟨n, off⟩ m =
          ((R.drop off.toNat).take (min m n.toNat),
            ⟨n - min m n.toNat, off + min m n.toNat⟩, false) := by
        rw [lrfRead]
        simp only [h0, if_false, hlen]
        norm_num
      rw [lrfDrain, hread]
      have hmin1 : 1 ≤ min m n.toNat := by omega
      have hrec := ih (n - min m n.toNat) (off + min m n.toNat)
        (by omega) (by omega) (by omega) (by omega)
      dsimp only
      rw [hrec]
      dsimp only
      have htn : (n - (min m n.toNat : Nat)).toNat = n.toNat - min m n.toNat := by omega
      have hoffn : (off + (min m n.toNat : Nat)).toNat = off.toNat + min m n.toNat := by
        omega
      rw [htn, hoffn, take_drop_chain]
      refine congrArg₂ Prod.mk ?_ ?_
      · congr 1
        omega
      · simp only [LRF.mk.injEq]
        exact ⟨trivial, by ring⟩

/-- One `Read` call advances the reader by some `k ≤ max N 0` bytes:
`Offset` grows by `k` and `N` shrinks by `k`. -/
theorem lrfRead_advance (R : List Byte) (st : LRF) (m : Nat) (h : 0 ≤ st.N) :
    ∃ k : Nat, (k : Int) ≤ st.N ∧
      (lrfRead R st m).2.1 = ⟨st.N - k, st.offset + k⟩ := by
  by_cases h0 : st.N ≤ 0
  · refine ⟨0, by omega, ?_⟩
    simp [lrfRead, h0]
  · refine ⟨((R.drop st.offset.toNat).take (min m st.N.toNat)).length, ?_, ?_⟩
    · have := List.length_take_le (min m st.N.toNat) (R.drop st.offset.toNat)
      omega
    · simp only [lrfRead, if_neg h0]

theorem lrfIssued_bounds (st : LRF) (m : Nat) (p : Int × Int)
    (hp : p ∈ (lrfIssued st m).toList) :
    st.offset ≤ p.1 ∧ 0 ≤ p.2 ∧ p.1 + p.2 ≤ st.offset + st.N := by
  by_cases h0 : st.N ≤ 0
  · simp [lrfIssued, h0] at hp
  · simp only [lrfIssued, h0, if_false, Option.toList_some, List.mem_singleton] at hp
    subst hp
    refine ⟨le_refl _, by positivity, ?_⟩
    have : ((min m st.N.toNat : Nat) : Int) ≤ st.N := by omega
    omega

theorem lrfReadSeq_cons (R : List Byte) (m : Nat) (ms : List Nat) (st : LRF) :
    lrfReadSeq R (m :: ms) st =
      ((lrfIssued st m).toList ++ (lrfReadSeq R ms (lrfRead R st m).2.1).1,
        (lrfReadSeq R ms (lrfRead R st m).2.1).2) := rfl

/-- C3: `LimitReaderFrom` is an exact range view.  For a random-access source
`R` and initial state `(N, Offset)` with the window inside `R`, driving the
reader with any buffer size `m ≥ 1` produces exactly `R[Offset : Offset+N]`,
of length exactly `N`, the remaining budget ends at `0`, and the next `Read`
reports end-of-stream (`(0, io.EOF)`); with `N = 0` this happens on the very
first call. -/
theorem claim_C3_limit_reader_exact_range (R : List Byte) (n off : Int)
    (m fuel : Nat) (hn : 0 ≤ n) (hoff : 0 ≤ off)
    (hwin : off + n ≤ (R.length : Int)) (hm : 1 ≤ m) (hfuel : n.toNat < fuel) :
    (lrfDrain R m fuel ⟨n, off⟩).1 = (R.drop off.toNat).take n.toNat ∧
    ((lrfDrain R m fuel ⟨n, off⟩).1).length = n.toNat ∧
    (lrfDrain R m fuel ⟨n, off⟩).2.N = 0 ∧
    lrfRead R (lrfDrain R m fuel ⟨n, off⟩).2 m =
      ([], (lrfDrain R m fuel ⟨n, off⟩).2, true) := by
  have h := lrfDrain_spec R m hm fuel n off hn hoff hwin hfuel
  rw [h]
  refine ⟨rfl, ?_, rfl, ?_⟩
  · rw [List.length_take, List.length_drop]
    omega
  · simp [lrfRead]

theorem claim_C3_limit_reader_exact_range_witness :
    (lrfDrain [7, 8, 9, 10, 11] 2 4 ⟨3, 1⟩).1 = [8, 9, 10] ∧
    ((lrfDrain [7, 8, 9, 10, 11] 2 4 ⟨3, 1⟩).1).length = 3 ∧
    (lrfDrain [7, 8, 9, 10, 11] 2 4 ⟨3, 1⟩).2.N = 0 := by
  have h := claim_C3_limit_reader_exact_range [7, 8, 9, 10, 11] 3 1 2 4
    (by decide) (by decide) (by decide) (by decide) (by decide)
  exact ⟨h.1.trans (by decide), h.2.1, h.2.2.1⟩

/-- C10: a `LimitReaderFrom` never touches the source outside its window.
Across any sequence of `Read` calls from initial state `(N₀, Offset₀)` with
`N₀ ≥ 0`: the sum `Offset + N` stays equal to `Offset₀ + N₀`, `N` never goes
below `0` and never increases, and every positioned read issued to the source
starts at or after `Offset₀` and ends at or before `Offset₀ + N₀` — so
instances over disjoint windows of a shared source touch disjoint ranges. -/
theorem claim_C10_limit_reader_window_confinement (R : List Byte)
    (ms : List Nat) (st0 : LRF) (h0 : 0 ≤ st0.N) :
    (lrfReadSeq R ms st0).2.offset + (lrfReadSeq R ms st0).2.N =
      st0.offset + st0.N ∧
    0 ≤ (lrfReadSeq R ms st0).2.N ∧
    (lrfReadSeq R ms st0).2.N ≤ st0.N ∧
    ∀ p ∈ (lrfReadSeq R ms st0).1,
      st0.offset ≤ p.1 ∧ 0 ≤ p.2 ∧ p.1 + p.2 ≤ st0.offset + st0.N := by
  induction ms generalizing st0 with
  | nil =>
    refine ⟨rfl, h0, le_refl _, ?_⟩
    intro p hp
    simp [lrfReadSeq] at hp
  | cons m ms ih =>
    obtain ⟨k, hk, hst⟩ := lrfRead_advance R st0 m h0
    have hrec := ih ⟨st0.N - k, st0.offset + k⟩ (show (0 : Int) ≤ st0.N - k by omega)
    rw [lrfReadSeq_cons, hst]
    obtain ⟨e1, e2, e3, e4⟩ := hrec
    dsimp only at e1 e2 e3 ⊢
    refine ⟨by omega, e2, by omega, ?_⟩
    intro p hp
    rcases List.mem_append.mp hp with hlft | hrgt
    · exact lrfIssued_bounds st0 m p hlft
    · have := e4 p hrgt
      dsimp only at this
      omega

theorem claim_C10_limit_reader_window_confinement_witness :
    (lrfReadSeq [1, 2, 3, 4, 5, 6] [2, 3] ⟨4, 1⟩).2.offset +
        (lrfReadSeq [1, 2, 3, 4, 5, 6] [2, 3] ⟨4, 1⟩).2.N = 1 + 4 ∧
    (lrfReadSeq [1, 2, 3, 4, 5, 6] [2, 3] ⟨4, 1⟩).2.N ≤ 4 ∧
    ((1 : Int) ≤ 3 ∧ (0 : Int) ≤ 2 ∧ (3 : Int) + 2 ≤ 1 + 4) := by
  have h := claim_C10_limit_reader_window_confinement [1, 2, 3, 4, 5, 6]
    [2, 3] ⟨4, 1⟩ (by decide)
  exact ⟨h.1, h.2.2.1, h.2.2.2 (3, 2) (by decide)⟩

/-! ## Chunk splitting -/

/-- The six chunk descriptors built by `Handler.upload`, written out. -/
theorem mkChunks_six (S : Nat) (ids : Nat → ChunkId) (urls : Nat → String) :
    mkChunks S 6 ids urls =
      [⟨0, ids 0, 0, S / 6, urls 0⟩,
       ⟨1, ids 1, S / 6, S / 6, urls 1⟩,
       ⟨2, ids 2, 2 * (S / 6), S / 6, urls 2⟩,
       ⟨3, ids 3, 3 * (S / 6), S / 6, urls 3⟩,
       ⟨4, ids 4, 4 * (S / 6), S / 6, urls 4⟩,
       ⟨5, ids 5, 5 * (S / 6), S - 5 * (S / 6), urls 5⟩] := by
  have hr : List.range 6 = [0, 1, 2, 3, 4, 5] := by decide
  simp only [mkChunks, hr, List.map_cons, List.map_nil]
  norm_num

/-- C2: chunk splitting is an exact partition.  For every file size `S` and
`N = chunks_per_file = 6`: the six descriptors have `size = S / 6` and
`offset = i * (S / 6)` for `i < 5`; the last chunk absorbs the remainder
(`size = S - 5 * (S / 6)`); indices are dense `0..5`; offsets are contiguous
starting at `0`; the sizes sum to `S`; and when `S < 6` every chunk but the
last has size `0`. -/
theorem claim_C2_chunk_split_exact_partition (S : Nat) (ids : Nat → ChunkId)
    (urls : Nat → String) :
    (mkChunks S 6 ids urls).length = 6 ∧
    (∀ i, i < 6 → ((mkChunks S 6 ids urls).getD i default).index = i) ∧
    (∀ i, i < 5 → ((mkChunks S 6 ids urls).getD i default).size = S / 6) ∧
    (∀ i, i < 6 → ((mkChunks S 6 ids urls).getD i default).offset = i * (S / 6)) ∧
    ((mkChunks S 6 ids urls).getD 5 default).size = S - 5 * (S / 6) ∧
    ((mkChunks S 6 ids urls).getD 0 default).offset = 0 ∧
    (∀ i, i < 5 →
      ((mkChunks S 6 ids urls).getD (i + 1) default).offset =
        ((mkChunks S 6 ids urls).getD i default).offset +
          ((mkChunks S 6 ids urls).getD i default).size) ∧
    ((mkChunks S 6 ids urls).map (·.size)).sum = S ∧
    (S < 6 → ∀ i, i < 5 → ((mkChunks S 6 ids urls).getD i default).size = 0) := by
  have hdiv : 5 * (S / 6) ≤ S := by omega
  rw [mkChunks_six]
  refine ⟨rfl, ?_, ?_, ?_, rfl, rfl, ?_, ?_, ?_⟩
  · intro i hi
    interval_cases i <;> simp [List.getD]
  · intro i hi
    interval_cases i <;> simp [List.getD]
  · intro i hi
    interval_cases i <;> · simp [List.getD]; try omega
  · intro i hi
    interval_cases i <;> · simp [List.getD]; try omega
  · simp only [List.map_cons, List.map_nil, List.sum_cons, List.sum_nil]
    omega
  · intro hS i hi
    interval_cases i <;> · simp [List.getD]; omega

theorem claim_C2_chunk_split_exact_partition_witness :
    ((mkChunks 7 6 (fun i => i + 100) (fun _ => "u")).map (·.size)).sum = 7 ∧
    ((mkChunks 7 6 (fun i => i + 100) (fun _ => "u")).getD 3 default).size = 1 := by
  have h := claim_C2_chunk_split_exact_partition 7 (fun i => i + 100) (fun _ => "u")
  exact ⟨h.2.2.2.2.2.2.2.1, (h.2.2.1 3 (by decide)).trans (by decide)⟩

/-! ## Placement lemmas -/

theorem length_sortStats (l : List NodeStat) : (sortStats l).length = l.length :=
  List.length_insertionSort _ _

theorem sortStats_perm (l : List NodeStat) : (sortStats l).Perm l :=
  List.perm_insertionSort _ _

theorem sortStats_sorted (l : List NodeStat) : (sortStats l).Sorted statLE :=
  List.sorted_insertionSort _ _

theorem cycleFill_length (src : List NodeStat) (n : Nat) :
    (cycleFill src n).length = n := by
  simp [cycleFill]

theorem cycleFill_getD (src : List NodeStat) (n : Nat)
    (i : Nat) (hi : i < n) :
    (cycleFill src n).getD i default = src.getD (i % src.length) default := by
  have hlen : i < (cycleFill src n).length := by
    rw [cycleFill_length]; exact hi
  rw [List.getD_eq_getElem _ _ hlen]
  simp [cycleFill]

theorem cycleFill_subset (src : List NodeStat) (n : Nat) (hsrc : src ≠ []) :
    ∀ x ∈ cycleFill src n, x ∈ src := by
  intro x hx
  simp only [cycleFill, List.mem_map, List.mem_range] at hx
  obtain ⟨i, hi, rfl⟩ := hx
  have hmod : i % src.length < src.length :=
    Nat.mod_lt _ (List.length_pos.mpr hsrc)
  rw [List.getD_eq_getElem _ _ hmod]
  exact List.getElem_mem hmod

theorem cycleFill_self (src : List NodeStat) : cycleFill src src.length = src := by
  apply List.ext_getElem
  · rw [cycleFill_length]
  · intro i h1 h2
    rw [cycleFill_length] at h1
    simp only [cycleFill, List.getElem_map, List.getElem_range]
    rw [Nat.mod_eq_of_lt h2, List.getD_eq_getElem _ _ h2]

theorem select_branch_take (stats : List NodeStat) (n : Nat)
    (h1 : stats ≠ []) (h2 : n < stats.length) :
    selectLeastFilledNodes stats n = (sortStats stats).take n := by
  simp [selectLeastFilledNodes, h1, h2]

theorem select_branch_cycle (stats : List NodeStat) (n : Nat)
    (h1 : stats ≠ []) (h2 : ¬n < stats.length) :
    selectLeastFilledNodes stats n = cycleFill (sortStats stats) n := by
  simp [selectLeastFilledNodes, h1, h2]

/-- C4: placement correctness of `selectLeastFilledNodes`.  For every stats
list and `n ≥ 1`: a non-empty input yields exactly `n` nodes, all drawn from
the input; with at least `n` entries the result is a sorted-ascending prefix
of a sorted permutation of the input whose members' total sizes are below
every remaining entry's (the `n` smallest); with fewer entries the result
cyclically repeats the ascending order; on empty stats `NextClients` returns
the "no nodes" error. -/
theorem claim_C4_placement (stats : List NodeStat) (n : Nat) (hn : 1 ≤ n) :
    (stats ≠ [] → (selectLeastFilledNodes stats n).length = n) ∧
    (∀ x ∈ selectLeastFilledNodes stats n, x ∈ stats) ∧
    (n ≤ stats.length →
      ∃ rest, sortStats stats = selectLeastFilledNodes stats n ++ rest ∧
        (selectLeastFilledNodes stats n ++ rest).Perm stats ∧
        (selectLeastFilledNodes stats n).Sorted statLE ∧
        ∀ a ∈ selectLeastFilledNodes stats n, ∀ b ∈ rest,
          a.totalSize ≤ b.totalSize) ∧
    (stats ≠ [] → stats.length ≤ n →
      ∀ i, i < n →
        (selectLeastFilledNodes stats n).getD i default =
          (sortStats stats).getD (i % stats.length) default) ∧
    NextClientsModel [] n = .error "no nodes" := by
  refine ⟨?_, ?_, ?_, ?_, rfl⟩
  · intro h1
    by_cases h2 : n < stats.length
    · rw [select_branch_take stats n h1 h2, List.length_take, length_sortStats]
      omega
    · rw [select_branch_cycle stats n h1 h2, cycleFill_length]
  · intro x hx
    by_cases h1 : stats = []
    · subst h1; simp [selectLeastFilledNodes] at hx
    · by_cases h2 : n < stats.length
      · rw [select_branch_take stats n h1 h2] at hx
        exact (sortStats_perm stats).mem_iff.mp (List.take_subset _ _ hx)
      · rw [select_branch_cycle stats n h1 h2] at hx
        have hs : sortStats stats ≠ [] := by
          intro hc
          have := length_sortStats stats
          rw [hc] at this
          exact h1 (List.length_eq_zero.mp this.symm)
        exact (sortStats_perm stats).mem_iff.mp (cycleFill_subset _ _ hs x hx)
  · intro hle
    have h1 : stats ≠ [] := by
      intro hc; subst hc; simp at hle; omega
    by_cases h2 : n < stats.length
    · rw [select_branch_take stats n h1 h2]
      refine ⟨(sortStats stats).drop n, (List.take_append_drop n _).symm, ?_, ?_, ?_⟩
      · rw [List.take_append_drop]
        exact sortStats_perm stats
      · exact List.Pairwise.sublist (List.take_sublist n _) (sortStats_sorted stats)
      · have hp := (List.pairwise_append.mp
          ((List.take_append_drop n (sortStats stats)).symm ▸ sortStats_sorted stats)).2.2
        intro a ha b hb
        exact hp a ha b hb
    · have hlen : n = stats.length := by omega
      rw [select_branch_cycle stats n h1 h2]
      have hcf : cycleFill (sortStats stats) n = sortStats stats := by
        rw [hlen, ← length_sortStats, cycleFill_self]
      refine ⟨[], by rw [hcf, List.append_nil], ?_, ?_, ?_⟩
      · rw [hcf, List.append_nil]; exact sortStats_perm stats
      · rw [hcf]; exact sortStats_sorted stats
      · intro a _ b hb; simp at hb
  · intro h1 hge i hi
    have h2 : ¬n < stats.length := by omega
    rw [select_branch_cycle stats n h1 h2]
    have hs : sortStats stats ≠ [] := by
      intro hc
      have := length_sortStats stats
      rw [hc] at this
      exact h1 (List.length_eq_zero.mp this.symm)
    rw [cycleFill_getD _ _ i hi, length_sortStats]

theorem claim_C4_placement_witness :
    (selectLeastFilledNodes [⟨"a", 1, 50⟩, ⟨"b", 1, 10⟩, ⟨"c", 1, 30⟩] 2).length = 2 ∧
    (selectLeastFilledNodes [⟨"a", 1, 50⟩, ⟨"b", 1, 10⟩] 5).getD 4 default =
      (sortStats [⟨"a", 1, 50⟩, ⟨"b", 1, 10⟩]).getD 0 default := by
  have h1 := claim_C4_placement [⟨"a", 1, 50⟩, ⟨"b", 1, 10⟩, ⟨"c", 1, 30⟩] 2 (by decide)
  have h2 := claim_C4_placement [⟨"a", 1, 50⟩, ⟨"b", 1, 10⟩] 5 (by decide)
  refine ⟨h1.1 (by decide), ?_⟩
  have := h2.2.2.2.1 (by decide) (by decide) 4 (by decide)
  simpa using this

/-! ## Storage-node surface -/

/-- The store-level delete is idempotent: deleting twice equals deleting
once (supporting the intent behind the HTTP route; see the next theorem for
what the route actually does). -/
theorem chunksDelete_idem (st : NodeStore) (id : ChunkId) :
    chunksDelete (chunksDelete st id) id = chunksDelete st id := by
  simp [chunksDelete, alistErase, List.filter_filter]

/-- C5 (the code diverges): a `DELETE` to `/chunks/{id}` — with a perfectly
valid id, whether or not the chunk exists — falls into the handler's
`default` method branch: it responds 405 "method not allowed" and leaves the
store untouched.  It never responds 200 and never removes the chunk, because
the method switch of `node.NewHandler` has no `http.MethodDelete` case and
its `HandlerStorage` interface exposes only `Read` and `Write`, although
`Chunks.Delete` exists and `node.Client.Delete` expects a 200. -/
theorem claim_C5_node_delete_route_missing (st : NodeStore) (id : ChunkId)
    (body : List Byte) :
    nodeHandleChunk .delete (some id) body st = ⟨405, none, st⟩ := rfl

/-! ## Placement input: cached snapshot vs fresh query -/

/-- C7 (counterexample): two handler states with the *same* cached `stat`
snapshot but different stores lead upload placement to different selections,
so the selection is not a function of the cached snapshot — `NextClients`
queries `storage.NodeStats` afresh and ignores `h.stat`. -/
theorem claim_C7_counterexample_selection_ignores_cache :
    (HandlerState.mk [⟨"cached:8080", 0, 0⟩] ⟨[], [], ["http://a:1"]⟩).stat =
      (HandlerState.mk [⟨"cached:8080", 0, 0⟩] ⟨[], [], ["http://b:1"]⟩).stat ∧
    handlerNextClients ⟨[⟨"cached:8080", 0, 0⟩], ⟨[], [], ["http://a:1"]⟩⟩ 6 ≠
      handlerNextClients ⟨[⟨"cached:8080", 0, 0⟩], ⟨[], [], ["http://b:1"]⟩⟩ 6 := by
  refine ⟨rfl, ?_⟩
  have ha : handlerNextClients ⟨[⟨"cached:8080", 0, 0⟩], ⟨[], [], ["http://a:1"]⟩⟩ 6 =
      .ok ["http://a:1", "http://a:1", "http://a:1", "http://a:1", "http://a:1",
        "http://a:1"] := rfl
  have hb : handlerNextClients ⟨[⟨"cached:8080", 0, 0⟩], ⟨[], [], ["http://b:1"]⟩⟩ 6 =
      .ok ["http://b:1", "http://b:1", "http://b:1", "http://b:1", "http://b:1",
        "http://b:1"] := rfl
  rw [ha, hb]
  intro h
  exact absurd (Except.ok.inj h) (by decide)

/-- C7 (amended): node selection during upload is a function of the
metadata store's *current* `NodeStats` answer, queried per upload; the cached
snapshot that `UpdateNodeStats` refreshes on the 1-second tick is only ever
written, never read, by the selection path — changing it (or refreshing it)
does not affect selection. -/
theorem claim_C7_amended_selection_queries_store (h : HandlerState) (n : Nat) :
    handlerNextClients h n = NextClientsModel (metaNodeStats h.meta) n ∧
    (∀ cached, handlerNextClients ⟨cached, h.meta⟩ n = handlerNextClients h n) ∧
    handlerNextClients (updateNodeStats h) n = handlerNextClients h n :=
  ⟨rfl, fun _ => rfl, rfl⟩

/-! ## Upload with an empty cluster -/

/-- C8: an upload arriving when `NodeStats` is empty is rejected atomically:
the handler responds 500 "no nodes" from `NextClients`, before the failure
group starts — no `AddFile`, no `NodeClient.Write` (the trace holds only the
initial `FetchNodes`), and both the metadata state and every node's blobs
are unchanged. -/
theorem claim_C8_upload_no_nodes_rejected (env : UploadEnv) (ids : Nat → ChunkId)
    (meta : MetaState) (blobs : Blobs) (name : String) (data : List Byte)
    (hstats : metaNodeStats meta = []) :
    (uploadModel env ids meta blobs name data).status = 500 ∧
    (uploadModel env ids meta blobs name data).errMsg = some "no nodes" ∧
    (uploadModel env ids meta blobs name data).meta = meta ∧
    (uploadModel env ids meta blobs name data).blobs = blobs ∧
    (uploadModel env ids meta blobs name data).ops = [.fetchNodes] := by
  have hsel : NextClientsModel (metaNodeStats meta) 6 = .error "no nodes" := by
    rw [hstats]; rfl
  simp [uploadModel, hsel]

theorem claim_C8_upload_no_nodes_rejected_witness :
    (uploadModel noFailEnv (fun i => i) ⟨[], [], []⟩ [] "f" [1, 2]).status = 500 ∧
    (uploadModel noFailEnv (fun i => i) ⟨[], [], []⟩ [] "f" [1, 2]).ops =
      [.fetchNodes] := by
  have h := claim_C8_upload_no_nodes_rejected noFailEnv (fun i => i)
    ⟨[], [], []⟩ [] "f" [1, 2] rfl
  exact ⟨h.1, h.2.2.2.2⟩

/-! ## Metadata `File` lookup -/

/-- C6: the `MetadataStore.File` lookup contract.  An absent file row yields
`FileNotFoundErr`; a present file row with no chunk rows yields the distinct
`ChunksNotFound` error; otherwise the returned `File` carries the file's name
and size and all chunk rows of that file, ordered by `index` ascending. -/
theorem claim_C6_meta_file_lookup (meta : MetaState) (name : String) :
    (lookupFile meta.files name = none →
      metaFile meta name = .error (.fileNotFound name)) ∧
    (∀ size, lookupFile meta.files name = some size →
      meta.chunks.filter (·.file = name) = [] →
      metaFile meta name = .error (.chunksNotFound name)) ∧
    (∀ size, lookupFile meta.files name = some size →
      meta.chunks.filter (·.file = name) ≠ [] →
      ∃ f, metaFile meta name = .ok f ∧ f.name = name ∧ f.size = size ∧
        f.chunks.Sorted (fun a b => a.index ≤ b.index) ∧
        f.chunks.Perm ((meta.chunks.filter (·.file = name)).map rowToChunk)) := by
  refine ⟨?_, ?_, ?_⟩
  · intro h
    simp [metaFile, h]
  · intro size h hf
    simp [metaFile, h, hf]
  · intro size h hf
    have hlen : ((meta.chunks.filter (·.file = name)).insertionSort rowIdxLE).length =
        (meta.chunks.filter (·.file = name)).length :=
      List.length_insertionSort _ _
    have hne : ¬((meta.chunks.filter (·.file = name)).insertionSort rowIdxLE).isEmpty := by
      rw [List.isEmpty_iff]
      intro hc
      apply hf
      apply List.length_eq_zero.mp
      rw [← hlen, hc]
      rfl
    refine ⟨⟨size, name,
      ((meta.chunks.filter (·.file = name)).insertionSort rowIdxLE).map rowToChunk⟩,
      ?_, rfl, rfl, ?_, ?_⟩
    · simp only [metaFile, h, hne, if_false]
      rfl
    · have hsorted : ((meta.chunks.filter (·.file = name)).insertionSort rowIdxLE).Sorted
          rowIdxLE := List.sorted_insertionSort _ _
      exact hsorted.map rowToChunk (fun a b hab => hab)
    · exact (List.perm_insertionSort _ _).map rowToChunk

theorem claim_C6_meta_file_lookup_witness :
    metaFile ⟨[("g", 5)], [], []⟩ "f" = .error (.fileNotFound "f") ∧
    metaFile ⟨[("f", 5)], [], []⟩ "f" = .error (.chunksNotFound "f") ∧
    ∃ f, metaFile ⟨[("f", 5)], [⟨"f", 0, 9, 0, 5, "n"⟩], []⟩ "f" = .ok f := by
  refine ⟨(claim_C6_meta_file_lookup ⟨[("g", 5)], [], []⟩ "f").1 rfl,
    (claim_C6_meta_file_lookup ⟨[("f", 5)], [], []⟩ "f").2.1 5 rfl rfl, ?_⟩
  obtain ⟨f, hf, -, -, -, -⟩ :=
    (claim_C6_meta_file_lookup ⟨[("f", 5)], [⟨"f", 0, 9, 0, 5, "n"⟩], []⟩ "f").2.2
      5 rfl (by decide)
  exact ⟨f, hf⟩

/-! ## Upload failure group and cleanup -/

theorem select_length (stats : List NodeStat) (n : Nat) (h1 : stats ≠ []) :
    (selectLeastFilledNodes stats n).length = n := by
  by_cases h2 : n < stats.length
  · rw [select_branch_take stats n h1 h2, List.length_take, length_sortStats]
    omega
  · rw [select_branch_cycle stats n h1 h2, cycleFill_length]

theorem select_ne_nil (stats : List NodeStat) (n : Nat) (hn : 1 ≤ n)
    (h : stats ≠ []) : selectLeastFilledNodes stats n ≠ [] := by
  intro hc
  have := select_length stats n h
  rw [hc] at this
  simp at this
  omega

theorem nextClients_ok (stats : List NodeStat) (n : Nat) (hn : 1 ≤ n)
    (h : stats ≠ []) :
    NextClientsModel stats n =
      .ok ((selectLeastFilledNodes stats n).map (·.baseURL)) := by
  have hne := select_ne_nil stats n hn h
  rw [NextClientsModel]
  simp [hne]

theorem mkChunks_map_index (S n : Nat) (ids : Nat → ChunkId)
    (urls : Nat → String) (g : Nat → Option String) :
    (mkChunks S n ids urls).map (fun c => g c.index) = (List.range n).map g := by
  simp [mkChunks, List.map_map, Function.comp]

theorem mkChunks_mem (S n : Nat) (ids : Nat → ChunkId) (urls : Nat → String)
    (i : Nat) (hi : i < n) :
    (⟨i, ids i, i * (S / n), if i = n - 1 then S - i * (S / n) else S / n,
      urls i⟩ : Chunk) ∈ mkChunks S n ids urls := by
  simp only [mkChunks, List.mem_map, List.mem_range]
  exact ⟨i, hi, rfl⟩

theorem uploadModel_fail_eq (env : UploadEnv) (ids : Nat → ChunkId)
    (meta : MetaState) (blobs : Blobs) (name : String) (data : List Byte)
    (urls : List String) (e : String)
    (hok : NextClientsModel (metaNodeStats meta) 6 = .ok urls)
    (he : ((List.range 6).map env.writeErr ++ [env.addFileErr]).findSome? id =
      some e) :
    uploadModel env ids meta blobs name data =
      ⟨500, some e,
        (if env.removeFileErr = none then
          metaRemoveFile
            (if env.addFileErr = none then
              metaAddFile meta
                ⟨data.length, name,
                  mkChunks data.length 6 ids (fun i => urls.getD i "")⟩
            else meta) name
        else
          (if env.addFileErr = none then
            metaAddFile meta
              ⟨data.length, name,
                mkChunks data.length 6 ids (fun i => urls.getD i "")⟩
          else meta)),
        applyDeletes env
          (applyWrites env data blobs
            (mkChunks data.length 6 ids (fun i => urls.getD i "")))
          (mkChunks data.length 6 ids (fun i => urls.getD i "")),
        (.fetchNodes ::
          ((mkChunks data.length 6 ids (fun i => urls.getD i "")).map
            (fun c => Op.write c.nodeBaseURL c.id) ++ [.addFile name])) ++
          (mkChunks data.length 6 ids (fun i => urls.getD i "")).map
            (fun c => Op.delete c.nodeBaseURL c.id) ++ [.removeFile name]⟩ := by
  rw [uploadModel, hok]
  dsimp only
  rw [mkChunks_map_index, he]

/-- C9: upload cleanup on failure.  Whenever any task of the concurrent
group (one of the six chunk writes or `AddFile`) fails, the handler responds
500 carrying the group's first error (in the model's serialization of the
task order), its trace contains a `NodeClient.Delete` attempt for every one
of the six chunk ids followed by a `MetadataStore.RemoveFile`, and failures
of those cleanup calls are logged only — they change neither the status, nor
the reported error, nor the set of attempted operations. -/
theorem claim_C9_upload_cleanup_on_failure (env : UploadEnv) (ids : Nat → ChunkId)
    (meta : MetaState) (blobs : Blobs) (name : String) (data : List Byte)
    (hstats : metaNodeStats meta ≠ [])
    (hfail : (∃ i, i < 6 ∧ env.writeErr i ≠ none) ∨ env.addFileErr ≠ none) :
    (uploadModel env ids meta blobs name data).status = 500 ∧
    (uploadModel env ids meta blobs name data).errMsg =
      ((List.range 6).map env.writeErr ++ [env.addFileErr]).findSome? id ∧
    (uploadModel env ids meta blobs name data).errMsg ≠ none ∧
    (∀ i, i < 6 →
      ∃ u, Op.delete u (ids i) ∈ (uploadModel env ids meta blobs name data).ops) ∧
    Op.removeFile name ∈ (uploadModel env ids meta blobs name data).ops ∧
    (∀ denv renv,
      (uploadModel { env with deleteErr := denv, removeFileErr := renv }
          ids meta blobs name data).status =
        (uploadModel env ids meta blobs name data).status ∧
      (uploadModel { env with deleteErr := denv, removeFileErr := renv }
          ids meta blobs name data).errMsg =
        (uploadModel env ids meta blobs name data).errMsg ∧
      (uploadModel { env with deleteErr := denv, removeFileErr := renv }
          ids meta blobs name data).ops =
        (uploadModel env ids meta blobs name data).ops) := by
  have hok := nextClients_ok (metaNodeStats meta) 6 (by omega) hstats
  have hfs : ((List.range 6).map env.writeErr ++ [env.addFileErr]).findSome? id ≠
      none := by
    rw [Ne, List.findSome?_eq_none_iff]
    intro hall
    rcases hfail with ⟨i, hi, hne⟩ | hne
    · exact hne (hall (env.writeErr i)
        (List.mem_append_left _ (List.mem_map.mpr ⟨i, List.mem_range.mpr hi, rfl⟩)))
    · exact hne (hall env.addFileErr
        (List.mem_append_right _ (List.mem_singleton.mpr rfl)))
  obtain ⟨e, he⟩ := Option.ne_none_iff_exists'.mp hfs
  have hu := uploadModel_fail_eq env ids meta blobs name data _ e hok he
  rw [hu]
  refine ⟨rfl, he.symm, by simp, ?_, ?_, ?_⟩
  · intro i hi
    refine ⟨((selectLeastFilledNodes (metaNodeStats meta) 6).map
      (fun x => x.baseURL)).getD i "", ?_⟩
    simp only [List.mem_append, List.mem_map]
    left; right
    exact ⟨_, mkChunks_mem data.length 6 ids _ i hi, rfl⟩
  · simp
  · intro denv renv
    have hv := uploadModel_fail_eq { env with deleteErr := denv, removeFileErr := renv }
      ids meta blobs name data _ e hok he
    rw [hv]
    exact ⟨rfl, rfl, rfl⟩

theorem claim_C9_upload_cleanup_on_failure_witness :
    (uploadModel
      ⟨fun i => if i = 3 then some "boom" else none, none, fun _ => none, none⟩
      (fun i => i + 40) ⟨[], [], ["n1"]⟩ [] "f" [1, 2, 3]).status = 500 ∧
    Op.removeFile "f" ∈
      (uploadModel
        ⟨fun i => if i = 3 then some "boom" else none, none, fun _ => none, none⟩
        (fun i => i + 40) ⟨[], [], ["n1"]⟩ [] "f" [1, 2, 3]).ops := by
  have h := claim_C9_upload_cleanup_on_failure
    ⟨fun i => if i = 3 then some "boom" else none, none, fun _ => none, none⟩
    (fun i => i + 40) ⟨[], [], ["n1"]⟩ [] "f" [1, 2, 3]
    (by decide) (Or.inl ⟨3, by decide, by decide⟩)
  exact ⟨h.1, h.2.2.2.2.1⟩

/-! ## Round trip: upload then download -/

theorem statsMapUpsert_length_le (m : List (String × NodeStat)) (k : String)
    (v : NodeStat) : m.length ≤ (statsMapUpsert m k v).length := by
  unfold statsMapUpsert
  split
  · rw [List.length_map]
  · rw [List.length_append]
    omega

theorem foldl_statsMapUpsert_length {β : Type} (key : β → String)
    (val : β → NodeStat) :
    ∀ (l : List β) (init : List (String × NodeStat)),
      init.length ≤
        (l.foldl (fun acc b => statsMapUpsert acc (key b) (val b)) init).length := by
  intro l
  induction l with
  | nil => intro init; exact le_refl _
  | cons b l ih =>
    intro init
    exact le_trans (statsMapUpsert_length_le init (key b) (val b)) (ih _)

theorem metaNodeStats_length (meta : MetaState) :
    (metaNodeStats meta).length =
      ((groupChunksByNode meta.chunks).foldl
        (fun acc g => statsMapUpsert acc g.1 ⟨g.1, g.2.1, g.2.2⟩)
        (meta.nodes.foldl (fun acc u => statsMapUpsert acc u ⟨u, 0, 0⟩) [])).length := by
  simp only [metaNodeStats]
  rw [length_sortStats, List.length_map]

theorem metaNodeStats_ne_nil (meta : MetaState) (h : meta.nodes ≠ []) :
    metaNodeStats meta ≠ [] := by
  intro hc
  have hlen := congrArg List.length hc
  rw [metaNodeStats_length meta] at hlen
  simp only [List.length_nil] at hlen
  obtain ⟨u, rest, hrest⟩ := List.exists_cons_of_ne_nil h
  rw [hrest, List.foldl_cons] at hlen
  have h1 : (statsMapUpsert [] u ⟨u, 0, 0⟩) = [(u, ⟨u, 0, 0⟩)] := rfl
  rw [h1] at hlen
  have h2 := foldl_statsMapUpsert_length (fun u => u) (fun u => ⟨u, 0, 0⟩)
    rest [(u, ⟨u, 0, 0⟩)]
  have h3 := foldl_statsMapUpsert_length (fun g : String × Nat × Nat => g.1)
    (fun g => ⟨g.1, g.2.1, g.2.2⟩) (groupChunksByNode meta.chunks)
    (rest.foldl (fun acc u => statsMapUpsert acc u ⟨u, 0, 0⟩) [(u, ⟨u, 0, 0⟩)])
  rw [hlen] at h3
  have := le_trans h2 h3
  simp at this
theorem uploadModel_ok_eq (ids : Nat → ChunkId) (meta : MetaState) (blobs : Blobs)
    (name : String) (data : List Byte) (urls : List String)
    (hok : NextClientsModel (metaNodeStats meta) 6 = .ok urls) :
    uploadModel noFailEnv ids meta blobs name data =
      ⟨200, none,
        metaAddFile meta
          ⟨data.length, name, mkChunks data.length 6 ids (fun i => urls.getD i "")⟩,
        applyWrites noFailEnv data blobs
          (mkChunks data.length 6 ids (fun i => urls.getD i "")),
        .fetchNodes ::
          ((mkChunks data.length 6 ids (fun i => urls.getD i "")).map
            (fun c => Op.write c.nodeBaseURL c.id) ++ [.addFile name])⟩ := by
  have hnone : ((List.range 6).map noFailEnv.writeErr ++
      [noFailEnv.addFileErr]).findSome? id = none := by decide
  rw [uploadModel, hok]
  dsimp only
  rw [mkChunks_map_index, hnone]
  rfl

theorem lookupFile_upsert_self (files : List (String × Nat)) (name : String)
    (size : Nat) : lookupFile (upsertFileRow files name size) name = some size := by
  unfold lookupFile upsertFileRow
  rw [List.find?_append]
  have h1 : (files.filter (fun p => !(p.1 = name))).find? (·.1 = name) = none := by
    rw [List.find?_eq_none]
    intro x hx
    have := (List.mem_filter.mp hx).2
    simp at this
    simp [this]
  rw [h1]
  simp

theorem filter_foldl_upsertChunkRow (name : String) :
    ∀ (cs : List ChunkRow) (rows : List ChunkRow),
      (∀ c ∈ cs, c.file = name) →
      (cs.map (·.index)).Nodup →
      (cs.foldl upsertChunkRow rows).filter (·.file = name) =
        rows.filter
          (fun r => r.file = name && cs.all (fun c => !(c.index = r.index))) ++
          cs := by
  intro cs
  induction cs with
  | nil =>
    intro rows _ _
    simp
  | cons c cs ih =>
    intro rows hfile hnodup
    rw [List.foldl_cons]
    rw [ih (upsertChunkRow rows c) (fun d hd => hfile d (List.mem_cons_of_mem c hd))
      (by simp at hnodup ⊢; exact hnodup.2)]
    rw [upsertChunkRow, List.filter_append, List.filter_filter]
    have hc : c.file = name := hfile c (List.mem_cons_self c cs)
    have hcidx : c.index ∉ cs.map (·.index) := by
      simp at hnodup
      simpa using hnodup.1
    have hone : [c].filter
        (fun r => r.file = name && cs.all (fun d => !(d.index = r.index))) = [c] := by
      simp [hc]
      intro d hd hcontra
      exact hcidx (List.mem_map.mpr ⟨d, hd, hcontra⟩)
    rw [hone]
    have hpt : ∀ r ∈ rows,
        ((fun r => r.file = name && cs.all fun d => !(d.index = r.index)) r &&
          (fun r => !(r.file = c.file && r.index = c.index)) r) =
        ((fun r => r.file = name && (c :: cs).all fun d => !(d.index = r.index)) r) := by
      intro r _
      by_cases hf : r.file = name
      · by_cases hi : r.index = c.index
        · simp [hf, hi, hc, eq_comm]
        · have hi' : ¬c.index = r.index := fun h => hi h.symm
          simp [hf, hi, hc, hi']
      · simp [hf]
    rw [List.filter_congr hpt]
    rw [List.append_assoc]
    rfl
theorem filter_old_rows_nil (name : String) (cs rows : List ChunkRow)
    (hcover : ∀ r ∈ rows, r.file = name → r.index ∈ cs.map (·.index)) :
    rows.filter
      (fun r => r.file = name && cs.all (fun c => !(c.index = r.index))) = [] := by
  rw [List.filter_eq_nil_iff]
  intro r hr
  by_cases hf : r.file = name
  · obtain ⟨c, hc, hcidx⟩ := List.mem_map.mp (hcover r hr hf)
    simp [hf]
    exact ⟨c, hc, hcidx⟩
  · simp [hf]

theorem mkChunks_map_idx (S n : Nat) (ids : Nat → ChunkId) (urls : Nat → String) :
    (mkChunks S n ids urls).map (·.index) = List.range n := by
  apply List.ext_getElem
  · simp [mkChunks]
  · intro i h1 h2
    simp [mkChunks]

theorem chunkToRow_file (name : String) (c : Chunk) :
    (chunkToRow name c).file = name := rfl

theorem rowToChunk_chunkToRow (name : String) (c : Chunk) :
    rowToChunk (chunkToRow name c) = c := rfl

/-- After `AddFile` into a state whose rows for `name` all have index `< 6`,
the rows of `name` are exactly the six freshly written rows, in order. -/
theorem metaAddFile_rows (meta : MetaState) (name : String) (S : Nat)
    (ids : Nat → ChunkId) (urlf : Nat → String)
    (hfresh : ∀ r ∈ meta.chunks, r.file = name → r.index < 6) :
    (metaAddFile meta ⟨S, name, mkChunks S 6 ids urlf⟩).chunks.filter
        (·.file = name) =
      (mkChunks S 6 ids urlf).map (chunkToRow name) := by
  have hidxmap : ((mkChunks S 6 ids urlf).map (chunkToRow name)).map (·.index) =
      List.range 6 := by
    rw [List.map_map]
    exact mkChunks_map_idx S 6 ids urlf
  have hfold : (metaAddFile meta ⟨S, name, mkChunks S 6 ids urlf⟩).chunks =
      ((mkChunks S 6 ids urlf).map (chunkToRow name)).foldl upsertChunkRow
        meta.chunks := by
    rw [metaAddFile, List.foldl_map]
  rw [hfold]
  rw [filter_foldl_upsertChunkRow name _ _ ?_ ?_]
  · rw [filter_old_rows_nil name _ _ ?_]
    · simp
    · intro r hr hf
      rw [hidxmap]
      exact List.mem_range.mpr (hfresh r hr hf)
  · intro c hc
    obtain ⟨d, _, rfl⟩ := List.mem_map.mp hc
    rfl
  · rw [hidxmap]
    exact List.nodup_range 6
theorem csRows_sorted (name : String) (S : Nat) (ids : Nat → ChunkId)
    (urlf : Nat → String) :
    ((mkChunks S 6 ids urlf).map (chunkToRow name)).Sorted rowIdxLE := by
  have hmk : List.Pairwise (fun a b : Chunk => a.index ≤ b.index)
      (mkChunks S 6 ids urlf) := by
    rw [mkChunks]
    exact List.Pairwise.map _ (fun a b hab => le_of_lt hab)
      (List.pairwise_lt_range 6)
  exact List.Pairwise.map _ (fun a b hab => hab) hmk

theorem map_rowToChunk_chunkToRow (name : String) (cs : List Chunk) :
    (cs.map (chunkToRow name)).map rowToChunk = cs := by
  rw [List.map_map]
  have : (rowToChunk ∘ chunkToRow name) = id := rfl
  rw [this, List.map_id]

theorem metaFile_after_addFile (meta : MetaState) (name : String) (S : Nat)
    (ids : Nat → ChunkId) (urlf : Nat → String)
    (hfresh : ∀ r ∈ meta.chunks, r.file = name → r.index < 6) :
    metaFile (metaAddFile meta ⟨S, name, mkChunks S 6 ids urlf⟩) name =
      .ok ⟨S, name, mkChunks S 6 ids urlf⟩ := by
  have hlk : lookupFile (metaAddFile meta ⟨S, name, mkChunks S 6 ids urlf⟩).files
      name = some S := lookupFile_upsert_self meta.files name S
  have hrows := metaAddFile_rows meta name S ids urlf hfresh
  have hsorted : (((metaAddFile meta ⟨S, name, mkChunks S 6 ids urlf⟩).chunks.filter
      (·.file = name)).insertionSort rowIdxLE) =
      (mkChunks S 6 ids urlf).map (chunkToRow name) := by
    rw [hrows]
    exact (csRows_sorted name S ids urlf).insertionSort_eq
  have hne : ¬(((metaAddFile meta ⟨S, name, mkChunks S 6 ids urlf⟩).chunks.filter
      (·.file = name)).insertionSort rowIdxLE).isEmpty := by
    rw [hsorted]
    have h6 : ((mkChunks S 6 ids urlf).map (chunkToRow name)).length = 6 := by
      rw [List.length_map, mkChunks, List.length_map, List.length_range]
    intro hc
    rw [List.isEmpty_iff] at hc
    rw [hc] at h6
    exact absurd h6 (by decide)
  rw [metaFile]
  rw [hlk]
  simp only [hsorted, map_rowToChunk_chunkToRow]
  rw [mkChunks_six]
  rfl

theorem alistLookup_upsert_self {κ ν : Type} [DecidableEq κ]
    (m : List (κ × ν)) (k : κ) (v : ν) :
    alistLookup (alistUpsert m k v) k = some v := by
  unfold alistLookup alistUpsert
  rw [List.find?_append]
  have h1 : (m.filter (fun p => !(p.1 = k))).find? (·.1 = k) = none := by
    rw [List.find?_eq_none]
    intro x hx
    have := (List.mem_filter.mp hx).2
    simp at this
    simp [this]
  rw [h1]
  simp

theorem alistLookup_upsert_other {κ ν : Type} [DecidableEq κ]
    (m : List (κ × ν)) (k k' : κ) (v : ν) (h : k' ≠ k) :
    alistLookup (alistUpsert m k v) k' = alistLookup m k' := by
  unfold alistLookup alistUpsert
  rw [List.find?_append]
  have hone : ([(k, v)].find? (·.1 = k')) = none := by
    have hkk : decide (k = k') = false := decide_eq_false (fun hc => h hc.symm)
    simp [List.find?, hkk]
  rw [hone]
  have hfilter : (m.filter (fun p => !(p.1 = k))).find? (·.1 = k') =
      m.find? (·.1 = k') := by
    induction m with
    | nil => rfl
    | cons a m ih =>
      rw [List.filter_cons]
      by_cases ha : a.1 = k
      · have ha' : ¬a.1 = k' := by rw [ha]; exact fun hc => h hc.symm
        have hkk : ¬k = k' := fun hc => h hc.symm
        simp [ha, ha', ih, hkk, List.find?_cons]
      · by_cases hk' : a.1 = k'
        · simp [ha, hk', h, List.find?_cons]
        · simp [ha, hk', ih, h, List.find?_cons]
  rw [hfilter]
  cases m.find? (·.1 = k') <;> rfl
theorem applyWrites_lookup_other (env : UploadEnv) (data : List Byte) :
    ∀ (cs : List Chunk) (blobs : Blobs) (k : String × ChunkId),
      (∀ c ∈ cs, (c.nodeBaseURL, c.id) ≠ k) →
      alistLookup (applyWrites env data blobs cs) k = alistLookup blobs k := by
  intro cs
  induction cs with
  | nil => intro blobs k _; rfl
  | cons c cs ih =>
    intro blobs k hk
    rw [applyWrites, List.foldl_cons]
    rw [show (List.foldl _ _ cs : Blobs) = applyWrites env data
      (if env.writeErr c.index = none then
        alistUpsert blobs (c.nodeBaseURL, c.id) (chunkBytes data c)
      else blobs) cs from rfl]
    rw [ih _ k (fun d hd => hk d (List.mem_cons_of_mem c hd))]
    split
    · exact alistLookup_upsert_other _ _ _ _
        (fun hc => hk c (List.mem_cons_self c cs) hc.symm)
    · rfl

theorem applyWrites_lookup_self (data : List Byte) :
    ∀ (cs : List Chunk) (blobs : Blobs) (c : Chunk), c ∈ cs →
      (cs.map (·.id)).Nodup →
      alistLookup (applyWrites noFailEnv data blobs cs) (c.nodeBaseURL, c.id) =
        some (chunkBytes data c) := by
  intro cs
  induction cs with
  | nil => intro blobs c hc _; exact absurd hc (List.not_mem_nil c)
  | cons c' cs ih =>
    intro blobs c hc hnodup
    rw [applyWrites, List.foldl_cons]
    have hstep : (if noFailEnv.writeErr c'.index = none then
        alistUpsert blobs (c'.nodeBaseURL, c'.id) (chunkBytes data c')
      else blobs) = alistUpsert blobs (c'.nodeBaseURL, c'.id) (chunkBytes data c') := by
      simp [noFailEnv]
    rw [show (List.foldl _ _ cs : Blobs) = applyWrites noFailEnv data
      (if noFailEnv.writeErr c'.index = none then
        alistUpsert blobs (c'.nodeBaseURL, c'.id) (chunkBytes data c')
      else blobs) cs from rfl, hstep]
    simp only [List.map_cons, List.nodup_cons] at hnodup
    rcases List.mem_cons.mp hc with rfl | hmem
    · rw [applyWrites_lookup_other noFailEnv data cs _ _ ?_]
      · exact alistLookup_upsert_self _ _ _
      · intro d hd hpair
        have : d.id = c.id := congrArg Prod.snd hpair
        exact hnodup.1 (this ▸ List.mem_map.mpr ⟨d, hd, rfl⟩)
    · exact ih _ c hmem hnodup.2

theorem streamChunks_eq (blobs : Blobs) (g : Chunk → List Byte) :
    ∀ cs : List Chunk,
      (∀ c ∈ cs, alistLookup blobs (c.nodeBaseURL, c.id) = some (g c)) →
      streamChunks blobs cs = cs.foldr (fun c acc => g c ++ acc) [] := by
  intro cs
  induction cs with
  | nil => intro _; rfl
  | cons c cs ih =>
    intro hall
    rw [streamChunks, hall c (List.mem_cons_self c cs)]
    rw [ih (fun d hd => hall d (List.mem_cons_of_mem c hd))]
    rfl

/-- Contiguity of a window list starting at offset `o`. -/
def contiguousFrom : Nat → List (Nat × Nat) → Prop
  | _, [] => True
  | o, w :: ws => w.1 = o ∧ contiguousFrom (o + w.2) ws

theorem foldr_windows (d : List Byte) :
    ∀ (ws : List (Nat × Nat)) (o : Nat), contiguousFrom o ws →
      ws.foldr (fun w acc => (d.drop w.1).take w.2 ++ acc) [] =
        (d.drop o).take ((ws.map Prod.snd).sum) := by
  intro ws
  induction ws with
  | nil => intro o _; simp
  | cons w ws ih =>
    intro o hcont
    obtain ⟨h1, h2⟩ := hcont
    rw [List.foldr_cons, ih (o + w.2) h2, h1, take_drop_chain]
    simp

theorem chunkBytes_slice (data : List Byte) (c : Chunk)
    (hwin : c.offset + c.size ≤ data.length) :
    chunkBytes data c = (data.drop c.offset).take c.size := by
  rw [chunkBytes]
  have h := lrfDrain_spec data 32768 (by omega) (c.size + 1)
    (c.size : Int) (c.offset : Int) (by positivity) (by positivity)
    (by omega) (by simp)
  rw [h]
  simp

theorem mkChunks_window (S : Nat) (ids : Nat → ChunkId) (urlf : Nat → String) :
    ∀ c ∈ mkChunks S 6 ids urlf, c.offset + c.size ≤ S := by
  intro c hc
  simp only [mkChunks, List.mem_map, List.mem_range] at hc
  obtain ⟨i, hi, rfl⟩ := hc
  dsimp only
  have hdiv : 6 * (S / 6) ≤ S := by omega
  interval_cases i <;> simp <;> omega

theorem mkChunks_map_ids (S n : Nat) (ids : Nat → ChunkId) (urls : Nat → String) :
    (mkChunks S n ids urls).map (·.id) = (List.range n).map ids := by
  apply List.ext_getElem
  · simp [mkChunks]
  · intro i h1 h2
    simp [mkChunks]
/-- C1: round trip of the frontend surface.  Against storage and node
models honouring their contracts, uploading a non-empty byte sequence under a
name (with fresh pairwise-distinct chunk ids, at least one registered node,
and no stale chunk row of that name beyond index 5) succeeds with 200, and a
subsequent download of that name streams back exactly the uploaded bytes:
the concatenation of the per-chunk reads in index order equals the input. -/
theorem claim_C1_upload_download_round_trip (meta : MetaState) (blobs : Blobs)
    (name : String) (data : List Byte) (ids : Nat → ChunkId)
    (_hdata : data ≠ []) (hnodes : meta.nodes ≠ [])
    (hids : ∀ i j, i < 6 → j < 6 → ids i = ids j → i = j)
    (hfresh : ∀ r ∈ meta.chunks, r.file = name → r.index < 6) :
    (uploadModel noFailEnv ids meta blobs name data).status = 200 ∧
    downloadModel (uploadModel noFailEnv ids meta blobs name data).meta
      (uploadModel noFailEnv ids meta blobs name data).blobs name = .ok data := by
  have hstats := metaNodeStats_ne_nil meta hnodes
  obtain ⟨urls, hok⟩ : ∃ urls, NextClientsModel (metaNodeStats meta) 6 = .ok urls :=
    ⟨_, nextClients_ok (metaNodeStats meta) 6 (by omega) hstats⟩
  have hu := uploadModel_ok_eq ids meta blobs name data urls hok
  rw [hu]
  refine ⟨rfl, ?_⟩
  dsimp only
  have hmf := metaFile_after_addFile meta name data.length ids
    (fun i => urls.getD i "") hfresh
  rw [downloadModel, hmf]
  dsimp only
  have hnodupids :
      ((mkChunks data.length 6 ids (fun i => urls.getD i "")).map (·.id)).Nodup := by
    rw [mkChunks_map_ids]
    refine List.Nodup.map_on ?_ (List.nodup_range 6)
    intro x hx y hy hxy
    exact hids x y (List.mem_range.mp hx) (List.mem_range.mp hy) hxy
  have hall : ∀ c ∈ mkChunks data.length 6 ids (fun i => urls.getD i ""),
      alistLookup
        (applyWrites noFailEnv data blobs
          (mkChunks data.length 6 ids (fun i => urls.getD i "")))
        (c.nodeBaseURL, c.id) = some ((data.drop c.offset).take c.size) := by
    intro c hc
    rw [applyWrites_lookup_self data _ blobs c hc hnodupids,
      chunkBytes_slice data c (mkChunks_window data.length ids _ c hc)]
  rw [streamChunks_eq _ _ _ hall]
  have hfw : (mkChunks data.length 6 ids (fun i => urls.getD i "")).foldr
      (fun c acc => (data.drop c.offset).take c.size ++ acc) [] =
      ((mkChunks data.length 6 ids (fun i => urls.getD i "")).map
        (fun c => (c.offset, c.size))).foldr
        (fun w acc => (data.drop w.1).take w.2 ++ acc) [] := by
    rw [List.foldr_map]
  rw [hfw, mkChunks_six]
  have hmapw : ([(⟨0, ids 0, 0, data.length / 6, (fun i => urls.getD i "") 0⟩ : Chunk),
      ⟨1, ids 1, data.length / 6, data.length / 6, (fun i => urls.getD i "") 1⟩,
      ⟨2, ids 2, 2 * (data.length / 6), data.length / 6, (fun i => urls.getD i "") 2⟩,
      ⟨3, ids 3, 3 * (data.length / 6), data.length / 6, (fun i => urls.getD i "") 3⟩,
      ⟨4, ids 4, 4 * (data.length / 6), data.length / 6, (fun i => urls.getD i "") 4⟩,
      ⟨5, ids 5, 5 * (data.length / 6),
        data.length - 5 * (data.length / 6), (fun i => urls.getD i "") 5⟩].map
      (fun c => (c.offset, c.size))) =
      [(0, data.length / 6), (data.length / 6, data.length / 6),
        (2 * (data.length / 6), data.length / 6),
        (3 * (data.length / 6), data.length / 6),
        (4 * (data.length / 6), data.length / 6),
        (5 * (data.length / 6), data.length - 5 * (data.length / 6))] := rfl
  rw [hmapw]
  have hcont : contiguousFrom 0
      [(0, data.length / 6), (data.length / 6, data.length / 6),
        (2 * (data.length / 6), data.length / 6),
        (3 * (data.length / 6), data.length / 6),
        (4 * (data.length / 6), data.length / 6),
        (5 * (data.length / 6), data.length - 5 * (data.length / 6))] := by
    simp [contiguousFrom]
    omega
  rw [foldr_windows data _ 0 hcont]
  have hsum : (([(0, data.length / 6), (data.length / 6, data.length / 6),
      (2 * (data.length / 6), data.length / 6),
      (3 * (data.length / 6), data.length / 6),
      (4 * (data.length / 6), data.length / 6),
      (5 * (data.length / 6), data.length - 5 * (data.length / 6))].map
      Prod.snd).sum) = data.length := by
    simp
    omega
  rw [hsum, List.drop_zero, List.take_length]

theorem claim_C1_upload_download_round_trip_witness :
    (uploadModel noFailEnv (fun i => i + 10) ⟨[], [], ["n1", "n2"]⟩ [] "f.txt"
      [1, 2, 3, 4, 5, 6, 7]).status = 200 ∧
    downloadModel
      (uploadModel noFailEnv (fun i => i + 10) ⟨[], [], ["n1", "n2"]⟩ [] "f.txt"
        [1, 2, 3, 4, 5, 6, 7]).meta
      (uploadModel noFailEnv (fun i => i + 10) ⟨[], [], ["n1", "n2"]⟩ [] "f.txt"
        [1, 2, 3, 4, 5, 6, 7]).blobs "f.txt" = .ok [1, 2, 3, 4, 5, 6, 7] :=
  claim_C1_upload_download_round_trip ⟨[], [], ["n1", "n2"]⟩ [] "f.txt"
    [1, 2, 3, 4, 5, 6, 7] (fun i => i + 10) (by decide) (by decide)
    (by intro i j _ _ h; have h2 : i + 10 = j + 10 := h; omega)
    (by intro r hr; exact absurd hr (List.not_mem_nil r))

end Stor
